import Mathlib

/-!
Shallow embedding of `src/git-watch/src/main.rs` (the btools `git-watch` tool).

Modelling conventions:
* Time is `Nat` (the code uses `Instant`/`Duration`; only ordering and adding a
  duration matter for the properties checked here).
* Paths are `Nat` (the code uses `PathBuf`; only decidable equality matters).
* The `HashMap<PathBuf, bool>` field `filenames` is an association list with
  `insert`/`remove`/`get` given HashMap semantics (keys effectively unique).
* The git subprocess `git check-ignore --quiet <path>` is an oracle
  `Nat → Option Nat`: `none` models a spawn failure (the code panics through
  `.expect("failed to execute git")`), `some s` models exit status `s`, and
  `status.success()` is `s = 0`.
-/

namespace GitWatch

/-- Fields of the CLI `Config` that the cache reads (`age`, `size`).  The
debounce loop's `settle` and `oneshot` options are passed explicitly to the
loop functions further below, mirroring `config.settle` / `config.oneshot`. -/
structure Config where
  age : Nat
  size : Nat
deriving Repr, DecidableEq

/-- `CacheMeta { eviction_time, path }` from the source. -/
structure CacheMeta where
  eviction_time : Nat
  path : Nat
deriving Repr, DecidableEq

/-- `struct Cache` from the source: config, `filenames: HashMap<PathBuf,bool>`,
`eviction_times: VecDeque<CacheMeta>` (head of the list = front of the deque). -/
structure Cache where
  config : Config
  filenames : List (Nat × Bool)
  eviction_times : List CacheMeta
deriving Repr, DecidableEq

/-- `Cache::new`. -/
def Cache.new (config : Config) : Cache :=
  ⟨config, [], []⟩

/-- `HashMap::get` on the association-list model. -/
def mapGet : List (Nat × Bool) → Nat → Option Bool
  | [], _ => none
  | x :: xs, p => if x.1 = p then some x.2 else mapGet xs p

/-- `HashMap::remove` on the association-list model (removes every binding of
the key; identical to removing the unique one since keys are unique). -/
def mapRemove : List (Nat × Bool) → Nat → List (Nat × Bool)
  | [], _ => []
  | x :: xs, p => if x.1 = p then mapRemove xs p else x :: mapRemove xs p

/-- `HashMap::insert` on the association-list model (replaces any old binding). -/
def mapInsert (m : List (Nat × Bool)) (p : Nat) (v : Bool) : List (Nat × Bool) :=
  (p, v) :: mapRemove m p

/-- The capacity-eviction loop of `Cache::is_ignored`:
`while eviction_times.len() >= size { if let Some(meta) = pop_front { filenames.remove(&meta.path) } }`.
When the deque is empty and `size = 0` the guard `0 >= 0` stays true while
`pop_front` keeps returning `None`, so the source loop never terminates; that
is modelled by the result `none`. -/
def capEvictLoop (size : Nat) : List (Nat × Bool) → List CacheMeta → Option (List (Nat × Bool) × List CacheMeta)
  | m, [] => if size = 0 then none else some (m, [])
  | m, e :: rest =>
    if size ≤ (e :: rest).length then capEvictLoop size (mapRemove m e.path) rest
    else some (m, e :: rest)

/-- The age-eviction loop of `Cache::is_ignored`: while the front entry has
`eviction_time < now`, remove it from the map, pop it, and continue; stop at
the first fresh front entry or when the deque is empty. -/
def ageEvictLoop (now : Nat) : List (Nat × Bool) → List CacheMeta → List (Nat × Bool) × List CacheMeta
  | m, [] => (m, [])
  | m, e :: rest =>
    if e.eviction_time < now then ageEvictLoop now (mapRemove m e.path) rest
    else (m, e :: rest)

/-- Result of one `Cache::is_ignored` call.  `diverge`: the capacity loop never
terminates (see `capEvictLoop`).  `panic`: the git spawn failed and the code
panics via `expect`.  `ok verdict consulted after`: the returned boolean, a flag
recording whether the git oracle was consulted (i.e. a cache miss), and the
cache state after the call. -/
inductive QueryResult where
  | diverge
  | panic
  | ok (verdict : Bool) (consulted : Bool) (after : Cache)
deriving Repr, DecidableEq

/-- `Cache::is_ignored(path)` at time `now` with git modelled by `oracle`. -/
def is_ignored (oracle : Nat → Option Nat) (now : Nat) (c : Cache) (p : Nat) : QueryResult :=
  match capEvictLoop c.config.size c.filenames c.eviction_times with
  | none => .diverge
  | some (m1, s1) =>
    let r2 := ageEvictLoop now m1 s1
    match mapGet r2.1 p with
    | some v => .ok v false ⟨c.config, r2.1, r2.2⟩
    | none =>
      match oracle p with
      | none => .panic
      | some status =>
        let v : Bool := status == 0
        .ok v true ⟨c.config, mapInsert r2.1 p v, r2.2 ++ [⟨now + c.config.age, p⟩]⟩

/-- Run a list of `(time, path)` queries in order, threading the cache and
counting how many of them consulted the git oracle.  `none` if any query
diverges or panics. -/
def runQueries (oracle : Nat → Option Nat) : Cache → List (Nat × Nat) → Option (Cache × Nat)
  | c, [] => some (c, 0)
  | c, (t, p) :: rest =>
    match is_ignored oracle t c p with
    | .diverge => none
    | .panic => none
    | .ok _ consulted c1 =>
      match runQueries oracle c1 rest with
      | none => none
      | some (cf, n) => some (cf, (if consulted then 1 else 0) + n)

/-!
Debounce coordinator (`fn main`, lines 227-251, plus `run_command`).

The consumer loop is embedded as a function of an abstract timed trace, under
these standard abstractions of the condition-variable semantics:
* `Ev.evt t` is an actionable event at time `t`: the producer callback locks,
  increments the shared counter and calls `notify_one`.  If the consumer is
  blocked in `wait`/`wait_timeout` this wakes it; if the consumer has not yet
  reached its first `wait`, the notification is dropped (Rust condvars have no
  memory).
* `Ev.spur t` is a spurious wakeup of a blocked consumer at time `t`.
* Consumer steps between blocking points are instantaneous, and traces are
  listed in time order.
-/

/-- An entry of the abstract trace driving the consumer loop. -/
inductive Ev where
  | evt (t : Nat)
  | spur (t : Nat)
deriving Repr, DecidableEq

/-- Time at which a trace entry occurs. -/
def Ev.time : Ev → Nat
  | .evt t => t
  | .spur t => t

/-- Producer-side counter increment carried by a trace entry (`+= 1` for an
actionable event, nothing for a spurious wakeup). -/
def Ev.incr : Ev → Nat
  | .evt _ => 1
  | .spur _ => 0

/-- `run_command`: spawning the configured command gives `none` (could not be
found) or `some code` (ran to completion with that exit status).  An `Err`
from `status()` becomes the fatal `anyhow::bail!`; a completed command is `Ok`
regardless of its exit code (the code only logs success/failure). -/
def runCommand (spawnResult : Option Int) : Except String Unit :=
  match spawnResult with
  | none => .error "command not found"
  | some _ => .ok ()

/-- The inner settle loop (lines 233-242): repeatedly
`wait_timeout(curr, settle)`; every wakeup before the timeout (a new event or
a spurious wakeup) restarts the full settle window from its own time; a
genuine timeout breaks out.  Arguments: time of the wakeup that started (or
restarted) the window, current counter value, remaining trace.  Returns the
time at which the wait finally timed out (`last wakeup + settle`), the counter
value at that point, and the unconsumed trace. -/
def settleLoop (settle : Nat) : Nat → Nat → List Ev → Nat × Nat × List Ev
  | t, count, [] => (t + settle, count, [])
  | t, count, e :: rest =>
    if e.time ≤ t + settle then settleLoop settle e.time (count + e.incr) rest
    else (t + settle, count, e :: rest)

/-- The outer consumer loop (lines 230-251), fuelled to keep the recursion
structural; `fuel ≥ trace length` is always sufficient because every
iteration consumes at least one trace entry.  State: `k` = number of triggers
fired so far (indexes `spawn`), `prev` = `lastObservedCounter`, `count` = the
shared counter.  Each iteration blocks in `cond.wait` until the next trace
entry, computes the counter after that wakeup, and fires through the settle
loop when `prev != curr`; a trace with no further entries leaves the consumer
blocked forever, contributing no further triggers.  Returns the list of
trigger (settle-timeout) times, or the error propagated by
`run_command(&config)?`. -/
def outerLoopF (settle : Nat) (oneshot : Bool) (spawn : Nat → Option Int) :
    Nat → Nat → Nat → Nat → List Ev → Except String (List Nat)
  | 0, _, _, _, _ => .ok []
  | _ + 1, _, _, _, [] => .ok []
  | fuel + 1, k, prev, count, e :: rest =>
    let c := count + e.incr
    if prev ≠ c then
      let r := settleLoop settle e.time c rest
      match runCommand (spawn k) with
      | .error msg => .error msg
      | .ok _ =>
        if oneshot then .ok [r.1]
        else
          match outerLoopF settle oneshot spawn fuel (k + 1) r.2.1 r.2.1 r.2.2 with
          | .error msg => .error msg
          | .ok l => .ok (r.1 :: l)
    else
      if oneshot then .ok []
      else outerLoopF settle oneshot spawn fuel k c c rest

/-- The consumer loop started with `lastObservedCounter = prev` and shared
counter `count`, observing the given trace. -/
def consumerLoop (settle : Nat) (oneshot : Bool) (spawn : Nat → Option Int)
    (prev count : Nat) (trace : List Ev) : Except String (List Nat) :=
  outerLoopF settle oneshot spawn trace.length 0 prev count trace

/-- Number of actionable events of the trace that occur strictly before time
`b` (each such event increments the counter; its `notify_one` finds no waiter
and is dropped). -/
def countPreEvents (b : Nat) : List Ev → Nat
  | [] => 0
  | e :: rest =>
    (match e with
      | .evt t => if t < b then 1 else 0
      | .spur _ => 0) + countPreEvents b rest

/-- The whole run of `main`'s consumer side when the consumer first blocks on
the condition variable at time `b`: events before `b` have already incremented
the counter (their notifications were dropped), and the consumer then runs
with `prev = 0` on the part of the trace from `b` on. -/
def consumerRun (settle : Nat) (oneshot : Bool) (spawn : Nat → Option Int)
    (b : Nat) (trace : List Ev) : Except String (List Nat) :=
  consumerLoop settle oneshot spawn 0 (countPreEvents b trace)
    (trace.filter (fun e => decide (b ≤ e.time)))

/-! Basic lemmas about the cache primitives. -/

/-- With `size = 0` the capacity-eviction loop never terminates, whatever the
state: it drains the deque and then spins on `0 >= 0` / `pop_front = None`. -/
lemma capEvictLoop_zero (m : List (Nat × Bool)) (s : List CacheMeta) :
    capEvictLoop 0 m s = none := by
  induction s generalizing m with
  | nil => rfl
  | cons e rest ih => simp [capEvictLoop, ih]

/-- The capacity loop does nothing while strictly below capacity. -/
lemma capEvictLoop_noop (size : Nat) (m : List (Nat × Bool)) (s : List CacheMeta)
    (h : s.length < size) : capEvictLoop size m s = some (m, s) := by
  cases s with
  | nil =>
    have hz : size ≠ 0 := by simp at h; omega
    simp [capEvictLoop, hz]
  | cons e rest =>
    have hn : ¬ size ≤ (e :: rest).length := Nat.not_le.mpr h
    simp only [capEvictLoop, if_neg hn]

/-- At exactly full capacity (`size ≥ 1`) the capacity loop evicts exactly the
front entry. -/
lemma capEvictLoop_full (size : Nat) (m : List (Nat × Bool)) (e : CacheMeta)
    (rest : List CacheMeta) (h : (e :: rest).length = size) :
    capEvictLoop size m (e :: rest) = some (mapRemove m e.path, rest) := by
  have h1 : size ≤ (e :: rest).length := Nat.le_of_eq h.symm
  have h2 : rest.length < size := by simp at h; omega
  simp only [capEvictLoop, if_pos h1]
  exact capEvictLoop_noop _ _ _ h2

/-- The age loop does nothing when no entry is stale. -/
lemma ageEvictLoop_noop (now : Nat) (m : List (Nat × Bool)) (s : List CacheMeta)
    (h : ∀ e ∈ s, ¬ e.eviction_time < now) : ageEvictLoop now m s = (m, s) := by
  cases s with
  | nil => rfl
  | cons e rest => simp [ageEvictLoop, h e (List.mem_cons_self e rest)]

/-- The age loop pops exactly the maximal stale front segment of the deque:
eviction repeats until the front is fresh (`insertedAt + maxAge ≥ now`,
strictly: `eviction_time < now` fails) or the deque is empty. -/
lemma ageEvictLoop_dropWhile (now : Nat) (m : List (Nat × Bool)) (s : List CacheMeta) :
    (ageEvictLoop now m s).2 = s.dropWhile (fun e => decide (e.eviction_time < now)) := by
  induction s generalizing m with
  | nil => rfl
  | cons e rest ih =>
    by_cases h : e.eviction_time < now
    · simp [ageEvictLoop, h, List.dropWhile_cons, ih]
    · simp [ageEvictLoop, h, List.dropWhile_cons]

lemma mapGet_mapRemove (m : List (Nat × Bool)) (q p : Nat) :
    mapGet (mapRemove m q) p = if p = q then none else mapGet m p := by
  induction m with
  | nil => simp [mapGet, mapRemove]
  | cons x xs ih =>
    by_cases hx : x.1 = q
    · by_cases hp : p = q
      · subst hp
        simp [mapGet, mapRemove, hx, ih]
      · have hxp : ¬ x.1 = p := fun h => hp (h ▸ hx)
        have hqp : ¬ q = p := fun h => hp h.symm
        simp [mapGet, mapRemove, hx, hp, hxp, hqp, ih]
    · by_cases hp : x.1 = p
      · have hpq : ¬ p = q := fun h => hx (hp.trans h)
        simp [mapGet, mapRemove, hx, hp, hpq]
      · simp [mapGet, mapRemove, hx, hp, ih]

lemma mapGet_mapInsert (m : List (Nat × Bool)) (q p : Nat) (v : Bool) :
    mapGet (mapInsert m q v) p = if p = q then some v else mapGet m p := by
  by_cases hp : p = q
  · simp [mapInsert, mapGet, hp]
  · have : ¬ q = p := fun h => hp h.symm
    simp [mapInsert, mapGet, this, hp, mapGet_mapRemove]

/-- A consumer observing an empty remaining trace blocks forever and fires no
further trigger. -/
lemma outerLoopF_nil (settle : Nat) (oneshot : Bool) (spawn : Nat → Option Int)
    (fuel k prev count : Nat) :
    outerLoopF settle oneshot spawn fuel k prev count [] = .ok [] := by
  cases fuel <;> rfl

/-- A query on the freshly created cache (`size ≥ 1`): both eviction loops are
no-ops, the lookup misses, and the git oracle decides. -/
lemma isIgnored_new (cfg : Config) (oracle : Nat → Option Nat) (now p : Nat)
    (h : 1 ≤ cfg.size) :
    is_ignored oracle now (Cache.new cfg) p =
      match oracle p with
      | none => .panic
      | some s => .ok (s == 0) true ⟨cfg, [(p, s == 0)], [⟨now + cfg.age, p⟩]⟩ := by
  have hz : cfg.size ≠ 0 := by omega
  cases ho : oracle p with
  | none => simp [is_ignored, Cache.new, capEvictLoop, ageEvictLoop, mapGet, hz, ho]
  | some s =>
    simp [is_ignored, Cache.new, capEvictLoop, ageEvictLoop, mapGet, mapInsert,
      mapRemove, hz, ho]

/-- A query for `p` on a cache holding exactly a still-fresh entry for `p`
(`size ≥ 2`, entry expiring at `d` with `now ≤ d`): both eviction loops are
no-ops and the cached verdict is returned without consulting the oracle. -/
lemma isIgnored_singleton_hit (cfg : Config) (oracle : Nat → Option Nat)
    (now p d : Nat) (v : Bool) (hsz : 2 ≤ cfg.size) (hd : now ≤ d) :
    is_ignored oracle now ⟨cfg, [(p, v)], [⟨d, p⟩]⟩ p
      = .ok v false ⟨cfg, [(p, v)], [⟨d, p⟩]⟩ := by
  have h1 : ([⟨d, p⟩] : List CacheMeta).length < cfg.size := by simp; omega
  have hage : ageEvictLoop now [(p, v)] [⟨d, p⟩] = ([(p, v)], [⟨d, p⟩]) := by
    refine ageEvictLoop_noop _ _ _ ?_
    intro e he
    simp at he
    subst he
    exact Nat.not_lt.mpr hd
  simp [is_ignored, capEvictLoop_noop _ _ _ h1, hage, mapGet]

/-- Repeated queries for the single cached still-fresh path are pure cache
hits: the state is a fixed point and the oracle is consulted zero times. -/
lemma runQueries_singleton_repeats (cfg : Config) (oracle : Nat → Option Nat)
    (p d : Nat) (v : Bool) (hsz : 2 ≤ cfg.size) :
    ∀ reps : List Nat, (∀ r ∈ reps, r ≤ d) →
      runQueries oracle ⟨cfg, [(p, v)], [⟨d, p⟩]⟩ (reps.map (fun r => (r, p)))
        = some (⟨cfg, [(p, v)], [⟨d, p⟩]⟩, 0) := by
  intro reps
  induction reps with
  | nil => intro _; rfl
  | cons r rs ih =>
    intro h
    have hr := h r (List.mem_cons_self r rs)
    simp [runQueries, isIgnored_singleton_hit cfg oracle r p d v hsz hr,
      ih (fun x hx => h x (List.mem_cons_of_mem _ hx))]

/-! Claims C5, C9, C6, C4 about the cache. -/

/-- C5: the claim says a zero-size cache degrades to always consulting the
oracle, with every query terminating.  The code instead never terminates: with
`size = 0` the capacity loop's guard `len >= 0` is always true while
`pop_front` on the empty deque returns `None`, so `is_ignored` diverges on
every query (this theorem evaluates the embedded code at the failing inputs). -/
theorem claim5_size_zero_diverges (oracle : Nat → Option Nat) (now : Nat)
    (c : Cache) (p : Nat) (h : c.config.size = 0) :
    is_ignored oracle now c p = QueryResult.diverge := by
  simp [is_ignored, h, capEvictLoop_zero]

theorem claim5_witness :
    (Cache.new ⟨30, 0⟩).config.size = 0 ∧
    is_ignored (fun _ => some 0) 7 (Cache.new ⟨30, 0⟩) 3 = QueryResult.diverge :=
  ⟨rfl, claim5_size_zero_diverges (fun _ => some 0) 7 (Cache.new ⟨30, 0⟩) 3 rfl⟩

/-- C9: on a miss, a successful spawn of git with any exit status yields a
verdict (`ignored` exactly when the status is 0, so any git error status means
"actionable") which is cached like a normal verdict; only a spawn failure
panics (aborts the run), so oracle failure is detected solely at the spawn
boundary, never from the exit status. -/
theorem claim9_oracle_exit_status (cfg : Config) (oracle : Nat → Option Nat)
    (now p : Nat) (hsz : 1 ≤ cfg.size) :
    (is_ignored oracle now (Cache.new cfg) p = QueryResult.panic ↔ oracle p = none) ∧
    (∀ s, oracle p = some s →
      is_ignored oracle now (Cache.new cfg) p
        = .ok (s == 0) true ⟨cfg, [(p, s == 0)], [⟨now + cfg.age, p⟩]⟩) ∧
    (∀ s, oracle p = some s → s ≠ 0 →
      is_ignored oracle now (Cache.new cfg) p
        = .ok false true ⟨cfg, [(p, false)], [⟨now + cfg.age, p⟩]⟩) := by
  rw [isIgnored_new cfg oracle now p hsz]
  refine ⟨?_, ?_, ?_⟩
  · cases ho : oracle p <;> simp [ho]
  · intro s hs; simp [hs]
  · intro s hs hne
    have hb : (s == 0) = false := by simp [hne]
    simp [hs, hb]

theorem claim9_witness :
    (1 ≤ (Config.mk 30 1000).size) ∧
    (is_ignored (fun _ => some 128) 4 (Cache.new ⟨30, 1000⟩) 9 = QueryResult.panic
       ↔ (fun _ : Nat => some 128) 9 = none) ∧
    is_ignored (fun _ => some 128) 4 (Cache.new ⟨30, 1000⟩) 9
      = .ok false true ⟨⟨30, 1000⟩, [(9, false)], [⟨34, 9⟩]⟩ := by
  have h := claim9_oracle_exit_status ⟨30, 1000⟩ (fun _ => some 128) 4 9 (by decide)
  exact ⟨by decide, h.1, h.2.2 128 rfl (by decide)⟩

/-- C6 counterexample: entry for path 3 inserted at time 0 with max age 5 and
queried at exactly time 5 = T + A is returned from the cache (`consulted`
flag `false`), not recomputed, because the code evicts only on the strict
comparison `eviction_time < now`; the claim demands recomputation at every
time ≥ T + A. -/
theorem claim6_cex :
    is_ignored (fun _ => some 0) 0 (Cache.new ⟨5, 2⟩) 3
        = .ok true true ⟨⟨5, 2⟩, [(3, true)], [⟨5, 3⟩]⟩ ∧
    is_ignored (fun _ => some 0) 5 ⟨⟨5, 2⟩, [(3, true)], [⟨5, 3⟩]⟩ 3
        = .ok true false ⟨⟨5, 2⟩, [(3, true)], [⟨5, 3⟩]⟩ :=
  ⟨rfl, rfl⟩

/-- C6 amended: the age loop evicts front entries while `insertedAt + maxAge
< now` holds strictly (first conjunct: it pops exactly the maximal stale
front segment, stopping at the first fresh entry or the empty deque).  An
entry inserted at `T` with max age `A` is recomputed (oracle consulted) when
re-queried at `now` iff `T + A < now`; at exactly `now = T + A` the cached
verdict is returned. -/
theorem claim6_age_eviction_strict (cfg : Config) (oracle : Nat → Option Nat)
    (p w T now : Nat) (hsz : 2 ≤ cfg.size) (hOr : oracle p = some w) :
    (∀ m s, (ageEvictLoop now m s).2
        = s.dropWhile (fun e => decide (e.eviction_time < now))) ∧
    is_ignored oracle T (Cache.new cfg) p
      = .ok (w == 0) true ⟨cfg, [(p, w == 0)], [⟨T + cfg.age, p⟩]⟩ ∧
    ∀ v b c2, is_ignored oracle now ⟨cfg, [(p, w == 0)], [⟨T + cfg.age, p⟩]⟩ p
        = QueryResult.ok v b c2 → (b = true ↔ T + cfg.age < now) := by
  refine ⟨fun m s => ageEvictLoop_dropWhile now m s, ?_, ?_⟩
  · rw [isIgnored_new cfg oracle T p (by omega)]; simp [hOr]
  · intro v b c2 h
    by_cases hlt : T + cfg.age < now
    · have hcap : capEvictLoop cfg.size [(p, w == 0)] [⟨T + cfg.age, p⟩]
          = some ([(p, w == 0)], [⟨T + cfg.age, p⟩]) :=
        capEvictLoop_noop _ _ _ (by simp; omega)
      have hage : ageEvictLoop now [(p, w == 0)] [⟨T + cfg.age, p⟩] = ([], []) := by
        simp [ageEvictLoop, hlt, mapRemove]
      have hq : is_ignored oracle now ⟨cfg, [(p, w == 0)], [⟨T + cfg.age, p⟩]⟩ p
          = .ok (w == 0) true ⟨cfg, [(p, w == 0)], [⟨now + cfg.age, p⟩]⟩ := by
        simp [is_ignored, hcap, hage, mapGet, hOr, mapInsert, mapRemove]
      rw [hq] at h
      injection h with h1 h2 h3
      rw [← h2]
      simp [hlt]
    · have hq := isIgnored_singleton_hit cfg oracle now p (T + cfg.age) (w == 0)
        hsz (Nat.not_lt.mp hlt)
      rw [hq] at h
      injection h with h1 h2 h3
      rw [← h2]
      simp [hlt]

theorem claim6_witness :
    ((2:Nat) ≤ (Config.mk 5 2).size) ∧
    is_ignored (fun _ => some 0) 0 (Cache.new ⟨5, 2⟩) 3
      = .ok true true ⟨⟨5, 2⟩, [(3, true)], [⟨5, 3⟩]⟩ ∧
    ∀ v b c2, is_ignored (fun _ => some 0) 6 ⟨⟨5, 2⟩, [(3, true)], [⟨5, 3⟩]⟩ 3
        = QueryResult.ok v b c2 → (b = true ↔ 0 + 5 < 6) := by
  have h := claim6_age_eviction_strict ⟨5, 2⟩ (fun _ => some 0) 3 0 0 6
    (by decide) rfl
  exact ⟨by decide, h.2.1, h.2.2⟩

/-- C4 counterexample: with max size 1 (which the claim allows: "max size
≥ 1"), the same path queried twice at the same instant — well within max age,
with no other insertions — consults the oracle twice, because the capacity
eviction loop runs before the hit check and evicts the path's own still-fresh
entry whenever the cache is at capacity. -/
theorem claim4_cex :
    runQueries (fun _ => some 1) (Cache.new ⟨30, 1⟩) [(0, 7), (0, 7)]
      = some (⟨⟨30, 1⟩, [(7, false)], [⟨30, 7⟩]⟩, 2) :=
  rfl

/-- C4 amended: the idempotence property holds whenever the sequence stays
strictly below max size at each repeat (for a single cached path, max size
≥ 2): the first query consults the oracle and inserts, and every repeat at or
before the entry's expiry returns the same verdict from the cache with the
state unchanged, the oracle being consulted zero further times across all the
repeats.  (With the cache at capacity, the capacity eviction that the code
runs before the hit check evicts the queried path's still-fresh entry, so the
unrestricted claim fails; see the counterexample.) -/
theorem claim4_idempotent_below_capacity (cfg : Config) (oracle : Nat → Option Nat)
    (p w now : Nat) (hsz : 2 ≤ cfg.size) (hOr : oracle p = some w)
    (reps : List Nat) (hfresh : ∀ r ∈ reps, r ≤ now + cfg.age) :
    is_ignored oracle now (Cache.new cfg) p
      = .ok (w == 0) true ⟨cfg, [(p, w == 0)], [⟨now + cfg.age, p⟩]⟩ ∧
    (∀ r, r ≤ now + cfg.age →
      is_ignored oracle r ⟨cfg, [(p, w == 0)], [⟨now + cfg.age, p⟩]⟩ p
        = .ok (w == 0) false ⟨cfg, [(p, w == 0)], [⟨now + cfg.age, p⟩]⟩) ∧
    runQueries oracle ⟨cfg, [(p, w == 0)], [⟨now + cfg.age, p⟩]⟩
        (reps.map (fun r => (r, p)))
      = some (⟨cfg, [(p, w == 0)], [⟨now + cfg.age, p⟩]⟩, 0) := by
  refine ⟨?_, ?_, ?_⟩
  · rw [isIgnored_new cfg oracle now p (by omega)]; simp [hOr]
  · intro r hr
    exact isIgnored_singleton_hit cfg oracle r p _ _ hsz hr
  · exact runQueries_singleton_repeats cfg oracle p _ _ hsz reps hfresh

theorem claim4_witness :
    ((2:Nat) ≤ (Config.mk 30 2).size) ∧
    is_ignored (fun _ => some 1) 0 (Cache.new ⟨30, 2⟩) 7
      = .ok false true ⟨⟨30, 2⟩, [(7, false)], [⟨30, 7⟩]⟩ ∧
    runQueries (fun _ => some 1) ⟨⟨30, 2⟩, [(7, false)], [⟨30, 7⟩]⟩
        ([0, 10, 30].map (fun r => (r, 7)))
      = some (⟨⟨30, 2⟩, [(7, false)], [⟨30, 7⟩]⟩, 0) := by
  have h := claim4_idempotent_below_capacity ⟨30, 2⟩ (fun _ => some 1) 7 1 0
    (by decide) rfl [0, 10, 30] (by decide)
  exact ⟨by decide, h.1, h.2.2⟩

/-! Claims C1, C2, C8, C10 about the debounce coordinator and command trigger. -/

lemma filter_post_nil (b : Nat) (trace : List Ev) (h : ∀ e ∈ trace, e.time < b) :
    trace.filter (fun e => decide (b ≤ e.time)) = [] := by
  induction trace with
  | nil => rfl
  | cons e rest ih =>
    have he := h e (List.mem_cons_self e rest)
    simp [List.filter_cons, Nat.not_le.mpr he,
      ih (fun x hx => h x (List.mem_cons_of_mem _ hx))]

/-- C2: the claim says the consumer's initial wait compares the counter with a
remembered baseline so that an event completing before the consumer first
blocks is still observed.  The code's initial wait (line 231) is an
unconditional `cond.wait(curr)`: an actionable event whose increment and
`notify_one` complete before the consumer blocks at time `b` leaves the
counter incremented but wakes nobody, and if no later event arrives the
consumer blocks forever — zero triggers, the event is silently lost.  This
theorem evaluates the embedded loop at exactly those inputs. -/
theorem claim2_preblock_event_lost (settle : Nat) (spawn : Nat → Option Int)
    (b : Nat) (trace : List Ev) (hpre : ∀ e ∈ trace, e.time < b) :
    consumerRun settle false spawn b trace = .ok [] := by
  rw [consumerRun, filter_post_nil b trace hpre, consumerLoop, outerLoopF_nil]

theorem claim2_witness :
    countPreEvents 5 [Ev.evt 1] = 1 ∧
    consumerRun 20 false (fun _ => some 0) 5 [Ev.evt 1] = .ok [] :=
  ⟨rfl, claim2_preblock_event_lost 20 (fun _ => some 0) 5 [Ev.evt 1] (by decide)⟩

/-- C10: with the one-shot flag, the consumer loop body runs exactly once —
whatever the trace, the run ends after the first condition-variable wakeup
with at most one trigger fired; in particular a (spurious) wakeup that
observes an unchanged counter (`prev = count`) ends the run with zero
triggers. -/
theorem claim10_oneshot (settle : Nat) (spawn : Nat → Option Int)
    (hs : ∀ k, (spawn k).isSome = true) (trace : List Ev)
    (t : Nat) (rest : List Ev) (prev count : Nat) (hpc : prev = count) :
    (∃ l, consumerLoop settle true spawn 0 0 trace = Except.ok l ∧ l.length ≤ 1) ∧
    consumerLoop settle true spawn prev count (Ev.spur t :: rest) = .ok [] := by
  constructor
  · cases trace with
    | nil => exact ⟨[], by simp [consumerLoop, outerLoopF], by simp⟩
    | cons e r =>
      cases e with
      | evt u =>
        obtain ⟨v0, hv0⟩ := Option.isSome_iff_exists.mp (hs 0)
        refine ⟨[(settleLoop settle u 1 r).1], ?_, by simp⟩
        simp [consumerLoop, outerLoopF, Ev.incr, Ev.time, runCommand, hv0]
      | spur u =>
        refine ⟨[], ?_, by simp⟩
        simp [consumerLoop, outerLoopF, Ev.incr]
  · subst hpc
    simp [consumerLoop, outerLoopF, Ev.incr]

theorem claim10_witness :
    (∀ k : Nat, ((fun _ => some 0) k : Option Int).isSome = true) ∧
    (∃ l, consumerLoop 20 true (fun _ => some 0) 0 0 [Ev.evt 0, Ev.evt 50, Ev.evt 100]
        = Except.ok l ∧ l.length ≤ 1) ∧
    consumerLoop 20 true (fun _ => some 0) 4 4 [Ev.spur 3, Ev.evt 50] = .ok [] := by
  have h := claim10_oneshot 20 (fun _ => some 0) (fun _ => rfl)
    [Ev.evt 0, Ev.evt 50, Ev.evt 100] 3 [Ev.evt 50] 4 4 rfl
  exact ⟨fun _ => rfl, h.1, h.2⟩

/-- A burst chained within the settle window is consumed whole by the settle
loop: each event wakes the timed wait before it expires and restarts the full
window, so the loop finally times out at the last event's time plus the
settle duration, having absorbed every increment. -/
lemma settleLoop_burst (settle : Nat) :
    ∀ (ts : List Nat) (t c : Nat),
      List.Chain' (fun a b => b ≤ a + settle) (t :: ts) →
      settleLoop settle t c (ts.map Ev.evt) = (ts.getLastD t + settle, c + ts.length, []) := by
  intro ts
  induction ts with
  | nil => intro t c _; simp [settleLoop]
  | cons u us ih =>
    intro t c h
    rw [List.chain'_cons] at h
    simp only [List.map_cons, settleLoop, Ev.time, Ev.incr, if_pos h.1,
      ih u (c + 1) h.2, List.getLastD_cons, List.length_cons]
    have hc : c + 1 + us.length = c + (us.length + 1) := by omega
    rw [hc]

/-- C1: (i) coalescing — for a burst of N ≥ 1 actionable events in which each
successive event arrives within one settle duration of the previous one, the
consumer fires exactly one trigger, at the last event's time plus the settle
duration (the window restarting on every event is what moves the trigger to
the last event); (ii) no coalescing across gaps — two actionable events
separated by more than the settle duration produce exactly two triggers, one
settle duration after each. -/
theorem claim1_coalescing (settle : Nat) (spawn : Nat → Option Int)
    (hs : ∀ k, (spawn k).isSome = true) (t : Nat) (ts : List Nat)
    (hburst : List.Chain' (fun a b => b ≤ a + settle) (t :: ts))
    (t1 t2 : Nat) (hgap : t1 + settle < t2) :
    consumerLoop settle false spawn 0 0 ((t :: ts).map Ev.evt)
      = .ok [ts.getLastD t + settle] ∧
    consumerLoop settle false spawn 0 0 [Ev.evt t1, Ev.evt t2]
      = .ok [t1 + settle, t2 + settle] := by
  obtain ⟨v0, hv0⟩ := Option.isSome_iff_exists.mp (hs 0)
  obtain ⟨v1, hv1⟩ := Option.isSome_iff_exists.mp (hs 1)
  constructor
  · simp [consumerLoop, outerLoopF, Ev.incr, Ev.time, runCommand, hv0,
      settleLoop_burst settle ts t 1 hburst, outerLoopF_nil]
  · have hn : ¬ t2 ≤ t1 + settle := by omega
    simp [consumerLoop, outerLoopF, settleLoop, Ev.incr, Ev.time, hn,
      runCommand, hv0, hv1, outerLoopF_nil]

theorem claim1_witness :
    (∀ k : Nat, ((fun _ => some 0) k : Option Int).isSome = true) ∧
    List.Chain' (fun a b => b ≤ a + 20) [0, 5, 10] ∧
    (0 : Nat) + 20 < 50 ∧
    consumerLoop 20 false (fun _ => some 0) 0 0 ([0, 5, 10].map Ev.evt)
      = .ok [30] ∧
    consumerLoop 20 false (fun _ => some 0) 0 0 [Ev.evt 0, Ev.evt 50]
      = .ok [20, 70] := by
  have h := claim1_coalescing 20 (fun _ => some 0) (fun _ => rfl) 0 [5, 10]
    (by simp [List.chain'_cons]) 0 50 (by decide)
  exact ⟨fun _ => rfl, by simp [List.chain'_cons], by decide, h.1, h.2⟩

/-- C8: `run_command` is fatal exactly when the executable cannot be spawned
(`Err` from `status()` becomes the bail-out), and a completed command is never
fatal whatever its exit code.  In the consumer loop, a spawn failure at the
first trigger propagates through `run_command(&config)?` and terminates the
whole run with the error; with spawnable commands the loop continues past a
trigger to the next settled burst regardless of the exit codes. -/
theorem claim8_command_outcomes (settle : Nat) (t1 t2 : Nat) (rest : List Ev)
    (hgap : t1 + settle < t2) (s1 s2 : Nat → Option Int) (c1 c2 : Int)
    (h1 : s1 0 = none) (h2a : s2 0 = some c1) (h2b : s2 1 = some c2) :
    (∀ r : Option Int, (∃ msg, runCommand r = .error msg) ↔ r = none) ∧
    (∀ code : Int, runCommand (some code) = .ok ()) ∧
    consumerLoop settle false s1 0 0 (Ev.evt t1 :: rest) = .error "command not found" ∧
    consumerLoop settle false s2 0 0 [Ev.evt t1, Ev.evt t2]
      = .ok [t1 + settle, t2 + settle] := by
  refine ⟨?_, fun code => rfl, ?_, ?_⟩
  · intro r
    cases r <;> simp [runCommand]
  · simp [consumerLoop, outerLoopF, Ev.incr, Ev.time, h1, runCommand]
  · have hn : ¬ t2 ≤ t1 + settle := by omega
    simp [consumerLoop, outerLoopF, settleLoop, Ev.incr, Ev.time, h2a, h2b,
      runCommand, hn, outerLoopF_nil]

theorem claim8_witness :
    ((0:Nat) + 20 < 50) ∧
    consumerLoop 20 false (fun _ => none) 0 0 [Ev.evt 0, Ev.evt 50]
      = .error "command not found" ∧
    consumerLoop 20 false (fun _ => some 2) 0 0 [Ev.evt 0, Ev.evt 50]
      = .ok [20, 70] := by
  have h := claim8_command_outcomes 20 0 50 [Ev.evt 50] (by decide)
    (fun _ => none) (fun _ => some 2) 2 2 rfl rfl rfl
  exact ⟨by decide, h.2.2.1, h.2.2.2⟩

/-! Claim C3: capacity eviction with K + 1 distinct paths. -/

/-- Queries compose: running `l1 ++ l2` is running `l1`, then `l2` from the
resulting cache, with oracle-consultation counts adding up. -/
lemma runQueries_append (oracle : Nat → Option Nat) (l1 l2 : List (Nat × Nat)) :
    ∀ c : Cache,
      runQueries oracle c (l1 ++ l2)
        = match runQueries oracle c l1 with
          | none => none
          | some (c1, n1) =>
            match runQueries oracle c1 l2 with
            | none => none
            | some (c2, n2) => some (c2, n1 + n2) := by
  induction l1 with
  | nil =>
    intro c
    simp only [List.nil_append, runQueries]
    cases runQueries oracle c l2 with
    | none => rfl
    | some r => simp
  | cons q rest ih =>
    intro c
    obtain ⟨tq, pq⟩ := q
    simp only [List.cons_append, runQueries]
    cases is_ignored oracle tq c pq with
    | diverge => rfl
    | panic => rfl
    | ok v b c1 =>
      simp only [List.append_eq]
      rw [ih c1]
      cases runQueries oracle c1 rest with
      | none => rfl
      | some r1 =>
        obtain ⟨cr, n1⟩ := r1
        simp only []
        cases runQueries oracle cr l2 with
        | none => rfl
        | some r2 =>
          obtain ⟨cs, n2⟩ := r2
          simp [Nat.add_assoc]

/-- Filling an under-capacity cache with distinct fresh paths at one instant:
every query misses (consulting the oracle) and appends its entry at the back,
and no eviction occurs. -/
lemma runQueries_fill (cfg : Config) (oracle : Nat → Option Nat) (now : Nat)
    (hOr : ∀ q, oracle q ≠ none) :
    ∀ (ps qs : List Nat) (m : List (Nat × Bool)),
      (qs ++ ps).Nodup →
      qs.length + ps.length ≤ cfg.size →
      (∀ q, (mapGet m q).isSome = true ↔ q ∈ qs) →
      ∃ m2,
        runQueries oracle ⟨cfg, m, qs.map (fun q => ⟨now + cfg.age, q⟩)⟩
            (ps.map (fun p => (now, p)))
          = some (⟨cfg, m2, (qs ++ ps).map (fun q => ⟨now + cfg.age, q⟩)⟩, ps.length) ∧
        (∀ q, (mapGet m2 q).isSome = true ↔ q ∈ qs ++ ps) := by
  intro ps
  induction ps with
  | nil =>
    intro qs m _ _ hm
    exact ⟨m, by simp [runQueries], by simpa using hm⟩
  | cons p ps ih =>
    intro qs m hnd hlen hm
    have hqs_len : qs.length < cfg.size := by
      simp only [List.length_cons] at hlen; omega
    have hcap := capEvictLoop_noop cfg.size m (qs.map (fun q => ⟨now + cfg.age, q⟩))
      (by simpa using hqs_len)
    have hage : ageEvictLoop now m (qs.map (fun q => ⟨now + cfg.age, q⟩))
        = (m, qs.map (fun q => ⟨now + cfg.age, q⟩)) := by
      refine ageEvictLoop_noop _ _ _ ?_
      intro e he
      simp only [List.mem_map] at he
      obtain ⟨q, _, rfl⟩ := he
      simp
    have hp_not : p ∉ qs := fun hmem =>
      (List.nodup_append.mp hnd).2.2 hmem (List.mem_cons_self p ps)
    have hmp : mapGet m p = none := by
      cases hget : mapGet m p with
      | none => rfl
      | some v => exact absurd ((hm p).mp (by simp [hget])) hp_not
    obtain ⟨w, hw⟩ : ∃ w, oracle p = some w := by
      cases ho : oracle p with
      | none => exact absurd ho (hOr p)
      | some w => exact ⟨w, rfl⟩
    have hquery : is_ignored oracle now ⟨cfg, m, qs.map (fun q => ⟨now + cfg.age, q⟩)⟩ p
        = .ok (w == 0) true ⟨cfg, mapInsert m p (w == 0),
            (qs ++ [p]).map (fun q => ⟨now + cfg.age, q⟩)⟩ := by
      simp [is_ignored, hcap, hage, hmp, hw, List.map_append]
    have hnd2 : ((qs ++ [p]) ++ ps).Nodup := by
      rw [List.append_assoc, List.singleton_append]
      exact hnd
    have hlen2 : (qs ++ [p]).length + ps.length ≤ cfg.size := by
      simp only [List.length_append, List.length_cons, List.length_nil] at hlen ⊢
      omega
    have hm2 : ∀ q, (mapGet (mapInsert m p (w == 0)) q).isSome = true ↔ q ∈ qs ++ [p] := by
      intro q
      rw [mapGet_mapInsert]
      by_cases hq : q = p
      · simp [hq]
      · simp [hq, hm q]
    obtain ⟨m3, hrun, hm3⟩ := ih (qs ++ [p]) (mapInsert m p (w == 0)) hnd2 hlen2 hm2
    refine ⟨m3, ?_, ?_⟩
    · simp only [List.map_cons, runQueries, hquery, hrun, List.append_assoc,
        List.singleton_append, List.length_cons, if_true]
      simp [Nat.add_comm]
    · intro q
      rw [hm3 q]
      simp [List.append_assoc]

/-- C3: with max size K ≥ 1 (K = length of `p0 :: mid`), querying the K + 1
distinct paths `p0, mid…, pK` inserts each of them (the oracle is consulted
K + 1 times) and the last query's capacity eviction removes exactly the
least-recently-inserted path `p0`, leaving the sequence `mid ++ [pK]`; a
subsequent query for the evicted `p0` misses and consults the oracle again. -/
theorem claim3_capacity_eviction (cfg : Config) (oracle : Nat → Option Nat)
    (hOr : ∀ q, oracle q ≠ none) (now : Nat) (p0 pK : Nat) (mid : List Nat)
    (hnd : (p0 :: (mid ++ [pK])).Nodup)
    (hsz : cfg.size = (p0 :: mid).length) :
    ∃ m2 v c2,
      runQueries oracle (Cache.new cfg)
          (((p0 :: mid) ++ [pK]).map (fun p => (now, p)))
        = some (⟨cfg, m2, (mid ++ [pK]).map (fun q => (⟨now + cfg.age, q⟩ : CacheMeta))⟩,
            ((p0 :: mid) ++ [pK]).length) ∧
      is_ignored oracle now
          ⟨cfg, m2, (mid ++ [pK]).map (fun q => (⟨now + cfg.age, q⟩ : CacheMeta))⟩ p0
        = QueryResult.ok v true c2 := by
  rw [List.nodup_cons] at hnd
  obtain ⟨hp0_not, hnd_tail⟩ := hnd
  -- phase 1: the first K queries fill the empty cache
  have hnd1 : (([] : List Nat) ++ (p0 :: mid)).Nodup := by
    rw [List.nil_append, List.nodup_cons]
    constructor
    · exact fun h => hp0_not (List.mem_append_left _ h)
    · exact ((List.nodup_append.mp hnd_tail)).1
  obtain ⟨mA, hrunA, hmA⟩ := runQueries_fill cfg oracle now hOr (p0 :: mid) [] []
    hnd1 (by simp [hsz]) (by simp [mapGet])
  rw [List.nil_append] at hrunA hmA
  have hrunA2 : runQueries oracle (Cache.new cfg) ((p0 :: mid).map (fun p => (now, p)))
      = some (⟨cfg, mA, (p0 :: mid).map (fun q => ⟨now + cfg.age, q⟩)⟩,
          (p0 :: mid).length) := hrunA
  -- phase 2: the (K+1)-th query evicts the front entry p0 and inserts pK
  have hpK_ne_p0 : pK ≠ p0 := by
    intro h
    exact hp0_not (h ▸ List.mem_append_right _ (List.mem_singleton.mpr rfl))
  have hpK_not_mid : pK ∉ mid := by
    intro h
    exact (List.nodup_append.mp hnd_tail).2.2 h (List.mem_singleton.mpr rfl)
  have hcapA : capEvictLoop cfg.size mA
      ((⟨now + cfg.age, p0⟩ : CacheMeta) :: mid.map (fun q => ⟨now + cfg.age, q⟩))
      = some (mapRemove mA p0, mid.map (fun q => ⟨now + cfg.age, q⟩)) := by
    refine capEvictLoop_full cfg.size mA _ _ ?_
    simp [hsz]
  have hageA : ageEvictLoop now (mapRemove mA p0) (mid.map (fun q => ⟨now + cfg.age, q⟩))
      = (mapRemove mA p0, mid.map (fun q => ⟨now + cfg.age, q⟩)) := by
    refine ageEvictLoop_noop _ _ _ ?_
    intro e he
    simp only [List.mem_map] at he
    obtain ⟨q, _, rfl⟩ := he
    simp
  have hgetA : mapGet (mapRemove mA p0) pK = none := by
    rw [mapGet_mapRemove]
    rw [if_neg hpK_ne_p0]
    cases hget : mapGet mA pK with
    | none => rfl
    | some v =>
      have : pK ∈ p0 :: mid := (hmA pK).mp (by simp [hget])
      rcases List.mem_cons.mp this with h | h
      · exact absurd h hpK_ne_p0
      · exact absurd h hpK_not_mid
  obtain ⟨wK, hwK⟩ : ∃ w, oracle pK = some w := by
    cases ho : oracle pK with
    | none => exact absurd ho (hOr pK)
    | some w => exact ⟨w, rfl⟩
  have hqueryK : is_ignored oracle now
        ⟨cfg, mA,
          (⟨now + cfg.age, p0⟩ : CacheMeta) :: mid.map (fun q => ⟨now + cfg.age, q⟩)⟩ pK
      = .ok (wK == 0) true ⟨cfg, mapInsert (mapRemove mA p0) pK (wK == 0),
          (mid ++ [pK]).map (fun q => ⟨now + cfg.age, q⟩)⟩ := by
    simp [is_ignored, hcapA, hageA, hgetA, hwK, List.map_append]
  -- phase 3: re-querying the evicted p0 misses again
  obtain ⟨q0, qrest, hq0⟩ : ∃ q0 qrest, mid ++ [pK] = q0 :: qrest := by
    cases hc : mid ++ [pK] with
    | nil => exact absurd hc (by simp)
    | cons a l => exact ⟨a, l, rfl⟩
  have hp0_ne_q0 : p0 ≠ q0 := by
    intro h
    exact hp0_not (h ▸ hq0 ▸ List.mem_cons_self q0 qrest)
  have hlenB : ((⟨now + cfg.age, q0⟩ : CacheMeta) ::
      qrest.map (fun q => (⟨now + cfg.age, q⟩ : CacheMeta))).length = cfg.size := by
    have hl : (mid ++ [pK]).length = (q0 :: qrest).length := by rw [hq0]
    simp only [List.length_append, List.length_cons, List.length_nil] at hl
    simp only [List.length_cons, List.length_map, hsz]
    simp at hl ⊢
    omega
  have hcapB : capEvictLoop cfg.size (mapInsert (mapRemove mA p0) pK (wK == 0))
        ((⟨now + cfg.age, q0⟩ : CacheMeta) :: qrest.map (fun q => ⟨now + cfg.age, q⟩))
      = some (mapRemove (mapInsert (mapRemove mA p0) pK (wK == 0)) q0,
          qrest.map (fun q => ⟨now + cfg.age, q⟩)) :=
    capEvictLoop_full cfg.size _ _ _ hlenB
  have hageB : ageEvictLoop now (mapRemove (mapInsert (mapRemove mA p0) pK (wK == 0)) q0)
        (qrest.map (fun q => ⟨now + cfg.age, q⟩))
      = (mapRemove (mapInsert (mapRemove mA p0) pK (wK == 0)) q0,
          qrest.map (fun q => ⟨now + cfg.age, q⟩)) := by
    refine ageEvictLoop_noop _ _ _ ?_
    intro e he
    simp only [List.mem_map] at he
    obtain ⟨q, _, rfl⟩ := he
    simp
  have hgetB : mapGet (mapRemove (mapInsert (mapRemove mA p0) pK (wK == 0)) q0) p0
      = none := by
    rw [mapGet_mapRemove, if_neg hp0_ne_q0, mapGet_mapInsert,
      if_neg (fun h => hpK_ne_p0 h.symm), mapGet_mapRemove, if_pos rfl]
  obtain ⟨w0, hw0⟩ : ∃ w, oracle p0 = some w := by
    cases ho : oracle p0 with
    | none => exact absurd ho (hOr p0)
    | some w => exact ⟨w, rfl⟩
  refine ⟨mapInsert (mapRemove mA p0) pK (wK == 0), (w0 == 0),
    ⟨cfg, mapInsert (mapRemove (mapInsert (mapRemove mA p0) pK (wK == 0)) q0) p0 (w0 == 0),
      qrest.map (fun q => ⟨now + cfg.age, q⟩) ++ [⟨now + cfg.age, p0⟩]⟩, ?_, ?_⟩
  · -- assemble the full run of the K+1 queries
    have hsingle : runQueries oracle
          ⟨cfg, mA, (p0 :: mid).map (fun q => ⟨now + cfg.age, q⟩)⟩
          ([pK].map (fun p => (now, p)))
        = some (⟨cfg, mapInsert (mapRemove mA p0) pK (wK == 0),
            (mid ++ [pK]).map (fun q => ⟨now + cfg.age, q⟩)⟩, 1) := by
      simp [runQueries, hqueryK]
    rw [List.map_append, runQueries_append, hrunA2]
    simp only []
    rw [hsingle]
    simp
  · rw [hq0]
    simp [is_ignored, hcapB, hageB, hgetB, hw0]

theorem claim3_witness :
    (∀ q : Nat, (fun _ => some 1) q ≠ (none : Option Nat)) ∧
    ((1 : Nat) :: ([2] ++ [3])).Nodup ∧
    (Config.mk 30 2).size = ([1, 2] : List Nat).length ∧
    (∃ m2 v c2,
      runQueries (fun _ => some 1) (Cache.new ⟨30, 2⟩)
          ((([1, 2] : List Nat) ++ [3]).map (fun p => (0, p)))
        = some (⟨⟨30, 2⟩, m2, ([2, 3] : List Nat).map (fun q => (⟨0 + 30, q⟩ : CacheMeta))⟩,
            (([1, 2] : List Nat) ++ [3]).length) ∧
      is_ignored (fun _ => some 1) 0
          ⟨⟨30, 2⟩, m2, ([2, 3] : List Nat).map (fun q => (⟨0 + 30, q⟩ : CacheMeta))⟩ 1
        = QueryResult.ok v true c2) := by
  refine ⟨fun _ => by simp, by decide, by decide, ?_⟩
  exact claim3_capacity_eviction ⟨30, 2⟩ (fun _ => some 1) (fun _ => by simp) 0 1 3 [2]
    (by decide) (by decide)

/-! Claim C7: the cache data-structure invariants. -/

/-- The cache invariants of the spec, for a cache whose last query happened at
time `t`: each path occurs at most once in the ordered sequence; the
sequence's paths are exactly the mapping's keys; the sequence is sorted by
expiry time (with constant TTL, equivalently by insertion time, since every
entry expires exactly `age` after its insertion); every entry expires by
`t + age` (it was inserted at or before `t`); and the sequence never exceeds
the configured max size. -/
def Cache.Inv (c : Cache) (t : Nat) : Prop :=
  (c.eviction_times.map CacheMeta.path).Nodup ∧
  (∀ p, (mapGet c.filenames p).isSome = true ↔ p ∈ c.eviction_times.map CacheMeta.path) ∧
  List.Sorted (· ≤ ·) (c.eviction_times.map CacheMeta.eviction_time) ∧
  (∀ e ∈ c.eviction_times, e.eviction_time ≤ t + c.config.age) ∧
  c.eviction_times.length ≤ c.config.size

/-- `is_ignored` after a successful capacity-eviction phase. -/
lemma is_ignored_eq (oracle : Nat → Option Nat) (now : Nat) (c : Cache) (p : Nat)
    (m1 : List (Nat × Bool)) (s1 : List CacheMeta)
    (hcap : capEvictLoop c.config.size c.filenames c.eviction_times = some (m1, s1)) :
    is_ignored oracle now c p =
      match mapGet (ageEvictLoop now m1 s1).1 p with
      | some v => .ok v false ⟨c.config, (ageEvictLoop now m1 s1).1, (ageEvictLoop now m1 s1).2⟩
      | none =>
        match oracle p with
        | none => .panic
        | some status =>
          .ok (status == 0) true
            ⟨c.config, mapInsert (ageEvictLoop now m1 s1).1 p (status == 0),
              (ageEvictLoop now m1 s1).2 ++ [⟨now + c.config.age, p⟩]⟩ := by
  unfold is_ignored
  rw [hcap]

/-- The capacity loop terminates when `size ≥ 1` and preserves the
key-correspondence and no-duplicates invariants, leaving a sub-deque of
length strictly below `size`. -/
lemma capEvictLoop_preserve (size : Nat) (hsz : 1 ≤ size) :
    ∀ (s : List CacheMeta) (m : List (Nat × Bool)),
      (s.map CacheMeta.path).Nodup →
      (∀ p, (mapGet m p).isSome = true ↔ p ∈ s.map CacheMeta.path) →
      ∃ m1 s1, capEvictLoop size m s = some (m1, s1) ∧
        s1.Sublist s ∧ s1.length < size ∧
        (s1.map CacheMeta.path).Nodup ∧
        (∀ p, (mapGet m1 p).isSome = true ↔ p ∈ s1.map CacheMeta.path) := by
  intro s
  induction s with
  | nil =>
    intro m h1 h2
    refine ⟨m, [], ?_, List.Sublist.refl _, by simp; omega, by simp, by simpa using h2⟩
    have hz : size ≠ 0 := by omega
    simp [capEvictLoop, hz]
  | cons e rest ih =>
    intro m h1 h2
    rw [List.map_cons, List.nodup_cons] at h1
    obtain ⟨hnotin, htail⟩ := h1
    by_cases hc : size ≤ (e :: rest).length
    · have h2r : ∀ p, (mapGet (mapRemove m e.path) p).isSome = true ↔
          p ∈ rest.map CacheMeta.path := by
        intro q
        rw [mapGet_mapRemove]
        by_cases hq : q = e.path
        · subst hq
          simp [hnotin]
        · rw [if_neg hq, h2 q]
          simp [hq]
      obtain ⟨m1, s1, hloop, hsub, hlen, hnd, hcorr⟩ := ih (mapRemove m e.path) htail h2r
      refine ⟨m1, s1, ?_, hsub.trans (List.sublist_cons_self e rest), hlen, hnd, hcorr⟩
      simp only [capEvictLoop, if_pos hc]
      exact hloop
    · refine ⟨m, e :: rest, ?_, List.Sublist.refl _, Nat.not_le.mp hc, ?_, h2⟩
      · simp only [capEvictLoop, if_neg hc]
      · rw [List.map_cons, List.nodup_cons]
        exact ⟨hnotin, htail⟩

/-- The age loop preserves the key-correspondence and no-duplicates
invariants, leaving a sub-deque. -/
lemma ageEvictLoop_preserve (now : Nat) :
    ∀ (s : List CacheMeta) (m : List (Nat × Bool)),
      (s.map CacheMeta.path).Nodup →
      (∀ p, (mapGet m p).isSome = true ↔ p ∈ s.map CacheMeta.path) →
      (ageEvictLoop now m s).2.Sublist s ∧
      ((ageEvictLoop now m s).2.map CacheMeta.path).Nodup ∧
      (∀ p, (mapGet (ageEvictLoop now m s).1 p).isSome = true ↔
        p ∈ (ageEvictLoop now m s).2.map CacheMeta.path) := by
  intro s
  induction s with
  | nil =>
    intro m h1 h2
    exact ⟨List.Sublist.refl _, by simp [ageEvictLoop], by simpa [ageEvictLoop] using h2⟩
  | cons e rest ih =>
    intro m h1 h2
    rw [List.map_cons, List.nodup_cons] at h1
    obtain ⟨hnotin, htail⟩ := h1
    by_cases he : e.eviction_time < now
    · have h2r : ∀ p, (mapGet (mapRemove m e.path) p).isSome = true ↔
          p ∈ rest.map CacheMeta.path := by
        intro q
        rw [mapGet_mapRemove]
        by_cases hq : q = e.path
        · subst hq
          simp [hnotin]
        · rw [if_neg hq, h2 q]
          simp [hq]
      obtain ⟨hsub, hnd, hcorr⟩ := ih (mapRemove m e.path) htail h2r
      rw [ageEvictLoop, if_pos he]
      exact ⟨hsub.trans (List.sublist_cons_self e rest), hnd, hcorr⟩
    · rw [ageEvictLoop, if_neg he]
      refine ⟨List.Sublist.refl _, ?_, h2⟩
      rw [List.map_cons, List.nodup_cons]
      exact ⟨hnotin, htail⟩

/-- C7: the invariants hold for the freshly created cache and are preserved by
every query when max size ≥ 1 (a query also never diverges then): afterwards
each path occurs at most once in the sequence, the sequence's paths are
exactly the mapping's keys, the sequence is sorted by expiry (hence, constant
TTL, by insertion time), and its length is at most the configured max size. -/
theorem claim7_invariants (cfg : Config) (t0 : Nat) (oracle : Nat → Option Nat)
    (c : Cache) (t now p : Nat) (hsz : 1 ≤ c.config.size)
    (hInv : Cache.Inv c t) (ht : t ≤ now) :
    Cache.Inv (Cache.new cfg) t0 ∧
    is_ignored oracle now c p ≠ QueryResult.diverge ∧
    (∀ v b c1, is_ignored oracle now c p = QueryResult.ok v b c1 → Cache.Inv c1 now) := by
  obtain ⟨hnd, hcorr, hsort, hbound, hlen⟩ := hInv
  obtain ⟨m1, s1, hcap, hsub1, hlen1, hnd1, hcorr1⟩ :=
    capEvictLoop_preserve c.config.size hsz c.eviction_times c.filenames hnd hcorr
  obtain ⟨hsub2, hnd2, hcorr2⟩ := ageEvictLoop_preserve now s1 m1 hnd1 hcorr1
  have hIg := is_ignored_eq oracle now c p m1 s1 hcap
  have hsub : (ageEvictLoop now m1 s1).2.Sublist c.eviction_times := hsub2.trans hsub1
  have hlen2 : (ageEvictLoop now m1 s1).2.length < c.config.size :=
    Nat.lt_of_le_of_lt hsub2.length_le hlen1
  have hsort2 : List.Sorted (· ≤ ·)
      ((ageEvictLoop now m1 s1).2.map CacheMeta.eviction_time) :=
    List.Pairwise.sublist (hsub.map CacheMeta.eviction_time) hsort
  have hbound2 : ∀ e ∈ (ageEvictLoop now m1 s1).2,
      e.eviction_time ≤ now + c.config.age := by
    intro e he
    have h1 := hbound e (hsub.subset he)
    omega
  refine ⟨?_, ?_, ?_⟩
  · exact ⟨by simp [Cache.new], fun q => by simp [Cache.new, mapGet],
      by simp [Cache.new], by simp [Cache.new], by simp [Cache.new]⟩
  · rw [hIg]
    cases hget : mapGet (ageEvictLoop now m1 s1).1 p with
    | some w => simp
    | none => cases ho : oracle p <;> simp [ho]
  · intro v b c1 h
    rw [hIg] at h
    cases hget : mapGet (ageEvictLoop now m1 s1).1 p with
    | some w =>
      rw [hget] at h
      injection h with h1 h2 h3
      subst h3
      exact ⟨hnd2, hcorr2, hsort2, hbound2, Nat.le_of_lt hlen2⟩
    | none =>
      rw [hget] at h
      cases ho : oracle p with
      | none =>
        rw [ho] at h
        exact absurd h (by simp)
      | some w =>
        rw [ho] at h
        injection h with h1 h2 h3
        subst h3
        have hp_not : p ∉ (ageEvictLoop now m1 s1).2.map CacheMeta.path := by
          intro hmem
          have hsome := (hcorr2 p).mpr hmem
          rw [hget] at hsome
          simp at hsome
        refine ⟨?_, ?_, ?_, ?_, ?_⟩
        · rw [List.map_append]
          refine List.nodup_append.mpr ⟨hnd2, by simp, ?_⟩
          intro a ha hb
          simp only [List.map_cons, List.map_nil, List.mem_singleton] at hb
          subst hb
          exact hp_not ha
        · intro q
          simp only [mapGet_mapInsert, List.map_append, List.map_cons, List.map_nil,
            List.mem_append, List.mem_singleton]
          by_cases hq : q = p
          · subst hq
            simp
          · rw [if_neg hq, hcorr2 q]
            simp [hq]
        · simp only [List.map_append, List.map_cons, List.map_nil]
          refine List.pairwise_append.mpr ⟨hsort2, by simp, ?_⟩
          intro a ha b hb
          simp only [List.mem_singleton] at hb
          subst hb
          obtain ⟨e, he, rfl⟩ := List.mem_map.mp ha
          exact hbound2 e he
        · intro e he
          rw [List.mem_append] at he
          rcases he with he | he
          · exact hbound2 e he
          · simp only [List.mem_singleton] at he
            subst he
            simp
        · rw [List.length_append]
          simp only [List.length_cons, List.length_nil]
          omega

theorem claim7_witness :
    Cache.Inv (Cache.new ⟨30, 1000⟩) 0 ∧
    is_ignored (fun _ => some 1) 5 (Cache.new ⟨30, 1000⟩) 9 ≠ QueryResult.diverge ∧
    (∀ v b c1, is_ignored (fun _ => some 1) 5 (Cache.new ⟨30, 1000⟩) 9
        = QueryResult.ok v b c1 → Cache.Inv c1 5) := by
  have hInv : Cache.Inv (Cache.new ⟨30, 1000⟩) 5 :=
    ⟨by simp [Cache.new], fun q => by simp [Cache.new, mapGet],
      by simp [Cache.new], by simp [Cache.new], by simp [Cache.new]⟩
  exact claim7_invariants ⟨30, 1000⟩ 0 (fun _ => some 1) (Cache.new ⟨30, 1000⟩) 5 5 9
    (by decide) hInv (Nat.le_refl 5)

end GitWatch
